import Mathlib

/-!
Verification of the CoTag metadata-synchronization and archive-rewrite engine
(`src/main.py`) against its specification.

Shallow embedding conventions:
* byte strings are `List Nat`;
* a zip container is abstracted as its ordered entry list (`List ZipEntry`);
  the on-disk image of a container is produced by an explicit, injective
  serialization `zipImage` with a computable partial inverse `zipParse`
  (standing for the zip format: any valid image is nonempty, and
  reading a container recovers exactly the entries that were written);
* the parsed XML descriptor is abstracted as the ordered list of direct
  children of the root element, each a `(tag, text)` pair, with its own
  byte serialization `xmlImage` / parser `xmlParse` (standing for
  `etree.tostring` / `etree.fromstring`);
* I/O failures (exceptions raised by `zipfile`, `lxml` or the filesystem)
  are injected through explicit oracles; `Path.write_bytes` is modelled as
  truncate-then-write, so a failure during the write leaves a prefix of the
  new image on disk, and a failure opening the file leaves the disk intact;
* Python `str.lower` is modelled on ASCII letters (`Char.toLower`), and the
  regex `\d` of `natural_key` as ASCII digits (`Char.isDigit`) — the names
  and suffixes compared in the source are ASCII.
-/

/-- Code points of a string, used to serialize names into byte images. -/
def strBytes (s : String) : List Nat := s.toList.map Char.toNat

/-- Inverse of `strBytes` on valid code points. -/
def bytesStr (l : List Nat) : String := String.mk (l.map Char.ofNat)

/-- Length-prefixed encoding of a byte string. -/
def encBytes (b : List Nat) : List Nat := b.length :: b

/-- Decode one length-prefixed byte string, returning it and the rest. -/
def decBytes : List Nat → Option (List Nat × List Nat)
  | [] => none
  | n :: rest => if n ≤ rest.length then some (rest.take n, rest.drop n) else none

theorem bytesStr_strBytes (s : String) : bytesStr (strBytes s) = s := by
  unfold bytesStr strBytes
  rw [List.map_map]
  have h : s.toList.map (Char.ofNat ∘ Char.toNat) = s.toList := by
    rw [show s.toList = s.toList.map id from (List.map_id _).symm]
    rw [List.map_map]
    apply List.map_congr_left
    intro c _
    exact Char.ofNat_toNat c
  rw [h]
  cases s
  rfl

theorem decBytes_encBytes (b r : List Nat) : decBytes (encBytes b ++ r) = some (b, r) := by
  unfold decBytes encBytes
  simp [List.take_left' rfl, List.drop_left' rfl]

/-- One entry of a zip container: its name and its raw payload bytes. -/
structure ZipEntry where
  name : String
  data : List Nat
deriving DecidableEq

/-- Byte image of one entry inside a container image. -/
def encEntry (e : ZipEntry) : List Nat := encBytes (strBytes e.name) ++ encBytes e.data

/-- Decode `n` encoded entries, returning them and the remaining bytes. -/
def decEntries : Nat → List Nat → Option (List ZipEntry × List Nat)
  | 0, l => some ([], l)
  | n + 1, l => do
    let (nb, l1) ← decBytes l
    let (db, l2) ← decBytes l1
    let (rest, l3) ← decEntries n l2
    some (⟨bytesStr nb, db⟩ :: rest, l3)

/-- The byte image of a container holding the given entries, in order.
A container image is never the empty byte string. -/
def zipImage (es : List ZipEntry) : List Nat := es.length :: es.flatMap encEntry

/-- Read a container image back into its entry list; `none` models a
`BadZipFile` error on bytes that are not a well-formed container image. -/
def zipParse : List Nat → Option (List ZipEntry)
  | [] => none
  | n :: l =>
    match decEntries n l with
    | some (es, []) => some es
    | _ => none

theorem decEntries_encEntries (es : List ZipEntry) (r : List Nat) :
    decEntries es.length (es.flatMap encEntry ++ r) = some (es, r) := by
  induction es generalizing r with
  | nil => rfl
  | cons e es ih =>
    have harr : (e :: es).flatMap encEntry ++ r =
        encBytes (strBytes e.name) ++ (encBytes e.data ++ (es.flatMap encEntry ++ r)) := by
      simp [encEntry, List.append_assoc]
    rw [show (e :: es).length = es.length + 1 from rfl, harr]
    unfold decEntries
    rw [decBytes_encBytes]
    simp only [Option.bind_eq_bind, Option.some_bind]
    rw [decBytes_encBytes]
    simp only [Option.some_bind]
    rw [ih]
    simp [bytesStr_strBytes]

theorem zipParse_zipImage (es : List ZipEntry) : zipParse (zipImage es) = some es := by
  have h := decEntries_encEntries es []
  rw [List.append_nil] at h
  simp [zipParse, zipImage, h]

theorem zipImage_ne_nil (es : List ZipEntry) : zipImage es ≠ [] := by
  unfold zipImage
  simp

/-- A parsed descriptor document, abstracted as the ordered `(tag, text)`
pairs of the direct children of the `ComicInfo` root element. An element
with no text is carried as the empty string (lxml's `text is None`). -/
abbrev Xml := List (String × String)

/-- Byte image of one child element inside a serialized descriptor. -/
def encChild (c : String × String) : List Nat := encBytes (strBytes c.1) ++ encBytes (strBytes c.2)

/-- Decode `n` encoded child elements. -/
def decChildren : Nat → List Nat → Option (Xml × List Nat)
  | 0, l => some ([], l)
  | n + 1, l => do
    let (tb, l1) ← decBytes l
    let (xb, l2) ← decBytes l1
    let (rest, l3) ← decChildren n l2
    some ((bytesStr tb, bytesStr xb) :: rest, l3)

/-- Serialized bytes of a descriptor document — the model of
`etree.tostring(root, ..., xml_declaration=True)`. -/
def xmlImage (x : Xml) : List Nat := x.length :: x.flatMap encChild

/-- Parse descriptor bytes; `none` models an lxml parse error. -/
def xmlParse : List Nat → Option Xml
  | [] => none
  | n :: l =>
    match decChildren n l with
    | some (x, []) => some x
    | _ => none

/-- The reserved mixed-value marker shown when selected records disagree
on a field (the literal string used by the source). -/
def sentinel : String := "<개별값>"

/-- The in-memory metadata dictionary of one record. Each recognized key is
`none` when absent from the dictionary. `author` is the synthesized UI key;
`penciller` and `inker` are the two XML-facing sub-fields. -/
structure Meta where
  seriesGroup : Option String := none
  series : Option String := none
  title : Option String := none
  volume : Option String := none
  number : Option String := none
  year : Option String := none
  month : Option String := none
  day : Option String := none
  author : Option String := none
  penciller : Option String := none
  inker : Option String := none
deriving DecidableEq

/-- The nine editable keys (the form fields of the editor). -/
inductive FKey
  | seriesGroup | series | title | volume | number | year | month | day | author
deriving DecidableEq

/-- Dictionary read with an empty-string default: `meta.get(k, "")`. -/
def metaGetD (m : Meta) : FKey → String
  | .seriesGroup => m.seriesGroup.getD ""
  | .series => m.series.getD ""
  | .title => m.title.getD ""
  | .volume => m.volume.getD ""
  | .number => m.number.getD ""
  | .year => m.year.getD ""
  | .month => m.month.getD ""
  | .day => m.day.getD ""
  | .author => m.author.getD ""

/-- The current texts of the nine form fields. -/
structure Fields where
  seriesGroup : String := ""
  series : String := ""
  title : String := ""
  volume : String := ""
  number : String := ""
  year : String := ""
  month : String := ""
  day : String := ""
  author : String := ""
deriving DecidableEq

/-- Read one form field's text. -/
def fieldsGet (f : Fields) : FKey → String
  | .seriesGroup => f.seriesGroup
  | .series => f.series
  | .title => f.title
  | .volume => f.volume
  | .number => f.number
  | .year => f.year
  | .month => f.month
  | .day => f.day
  | .author => f.author

/-- A container path, split into its directory and file name so that the
natural-sort key (computed from `path.name`) is distinguishable from the
identity used for deduplication (the whole path). -/
structure FPath where
  dir : String
  name : String
deriving DecidableEq

/-- The `FileItem` record of the source: one container path, its parsed
metadata, the last-saved snapshot, and the dirty flag. -/
structure FileItem where
  path : FPath
  meta : Meta := {}
  saved_meta : Meta := {}
  has_comicinfo : Bool := false
  dirty : Bool := false
deriving DecidableEq

/-- ASCII model of Python `str.lower`. -/
def lowerStr (s : String) : String := String.mk (s.toList.map Char.toLower)

/-- The test `n.lower().endswith('comicinfo.xml')` used to locate (and to
exclude) the descriptor entry, case-insensitively, anywhere in the archive. -/
def isDescName (n : String) : Bool :=
  List.isSuffixOf "comicinfo.xml".toList (lowerStr n).toList

/-- The entry list of the rebuilt container: every existing entry whose name
does not match the descriptor test, in order, then the new descriptor under
the literal root-level name `ComicInfo.xml` (lines 56-65 of the source). -/
def newEntries (es : List ZipEntry) (xmlBytes : List Nat) : List ZipEntry :=
  es.filter (fun e => ! isDescName e.name) ++ [⟨"ComicInfo.xml", xmlBytes⟩]

/-- Outcome of the final `path.write_bytes` call. `write_bytes` opens the
file for writing — truncating it — and then writes; so `failAfter k` (an
I/O error once `k` bytes are written) leaves a `k`-byte prefix of the new
image on disk, while `openFail` (the open itself fails) leaves the disk
intact. -/
inductive WriteOutcome
  | ok
  | openFail
  | failAfter (k : Nat)
deriving DecidableEq

/-- Injected I/O failures for one call of `write_comicinfo_to_zip`:
an exception while reading the existing entries, an exception while
building the in-memory image, and the outcome of the final write. -/
structure IOOracle where
  readFails : Bool := false
  buildFails : Bool := false
  writeOutcome : WriteOutcome := .ok
deriving DecidableEq

/-- Model of `write_comicinfo_to_zip(path, root)`: reads the existing
entries, drops any descriptor entry, appends the serialized `root` as
`ComicInfo.xml`, and overwrites the file, returning success paired with the
resulting on-disk bytes. Every exception is caught and reported as `false`
(the whole body is inside `try/except`). -/
def writeComicinfoToZip (disk : List Nat) (o : IOOracle) (root : Xml) : Bool × List Nat :=
  if o.readFails then (false, disk)
  else
    match zipParse disk with
    | none => (false, disk)
    | some es =>
      if o.buildFails then (false, disk)
      else
        let img := zipImage (newEntries es (xmlImage root))
        match o.writeOutcome with
        | .ok => (true, img)
        | .openFail => (false, disk)
        | .failAfter k => (false, img.take k)

/-- Model of `read_comicinfo_from_zip`: find the first entry whose name
case-insensitively ends in `comicinfo.xml` and parse its bytes; any failure
(unreadable archive, no such entry, malformed XML) yields `None`. -/
def readComicinfoFromZip (disk : List Nat) : Option Xml :=
  match zipParse disk with
  | none => none
  | some es =>
    match es.find? (fun e => isDescName e.name) with
    | none => none
    | some e => xmlParse e.data

/-- Model of `root.find(tag)` followed by the `el is not None and el.text`
guard of `_meta_from_xml`: the first direct child carrying `tag`, kept only
when its text is non-empty. -/
def readTag (x : Xml) (tag : String) : Option String :=
  match x.find? (fun c => c.1 == tag) with
  | some c => if c.2 ≠ "" then some c.2 else none
  | none => none

/-- Python `a or b` on optional strings: the left value when it is present
and truthy (non-empty), otherwise the right value. -/
def pyOr (a b : Option String) : Option String :=
  match a with
  | some s => if s ≠ "" then some s else b
  | none => b

/-- Model of `MainWindow._meta_from_xml`: read the ten mapped tags
(`SeriesGroup` … `Day`, `Penciller`, `Inker`), keeping only present,
non-empty texts, then synthesize `Author` as `Penciller or Inker` when that
value is truthy. -/
def metaFromXml (x : Xml) : Meta :=
  let author := pyOr (readTag x "Penciller") (readTag x "Inker")
  { seriesGroup := readTag x "SeriesGroup"
    series := readTag x "Series"
    title := readTag x "Title"
    volume := readTag x "Volume"
    number := readTag x "Number"
    year := readTag x "Year"
    month := readTag x "Month"
    day := readTag x "Day"
    penciller := readTag x "Penciller"
    inker := readTag x "Inker"
    author := match author with
      | some a => if a ≠ "" then some a else none
      | none => none }

/-- The `add(tag, value)` helper of `_build_xml_from_meta`: append a child
element only when the value is truthy and not the mixed-value sentinel. -/
def addIf (tag value : String) : Xml :=
  if value ≠ "" ∧ value ≠ sentinel then [(tag, value)] else []

/-- Model of `MainWindow._build_xml_from_meta`: the direct children of the
produced `ComicInfo` root, in the order the source emits them; the `Author`
value is expanded into `Penciller` then `Inker` under the same guard. -/
def buildXmlFromMeta (cur : Meta) : Xml :=
  addIf "SeriesGroup" (cur.seriesGroup.getD "") ++
  addIf "Series" (cur.series.getD "") ++
  addIf "Title" (cur.title.getD "") ++
  addIf "Volume" (cur.volume.getD "") ++
  addIf "Number" (cur.number.getD "") ++
  addIf "Year" (cur.year.getD "") ++
  addIf "Month" (cur.month.getD "") ++
  addIf "Day" (cur.day.getD "") ++
  (let author := cur.author.getD ""
   if author ≠ "" ∧ author ≠ sentinel then
     addIf "Penciller" author ++ addIf "Inker" author
   else [])

/-- The serialization contract as the specification words it: the child
elements in the fixed order `SeriesGroup, Series, Title, Volume, Number,
Year, Month, Day, Penciller, Inker` — the last two both carrying the
`Author` value — with every empty or sentinel-valued field omitted. -/
def serializedChildrenSpec (m : Meta) : Xml :=
  ([("SeriesGroup", m.seriesGroup.getD ""),
    ("Series", m.series.getD ""),
    ("Title", m.title.getD ""),
    ("Volume", m.volume.getD ""),
    ("Number", m.number.getD ""),
    ("Year", m.year.getD ""),
    ("Month", m.month.getD ""),
    ("Day", m.day.getD ""),
    ("Penciller", m.author.getD ""),
    ("Inker", m.author.getD "")] : Xml).filter
      (fun c => decide (c.2 ≠ "" ∧ c.2 ≠ sentinel))

/-- The per-key computation of `MainWindow._common_meta`: `first` is
`values[0]` and `rest` the remaining gathered values. -/
def commonKey (first : String) (rest : List String) : String :=
  let values := first :: rest
  if values.all (· == first) then first
  else if values.all (· == "") then "" else sentinel

/-- Model of `MainWindow._common_meta`. The gathered `values` list is in
selection order, and `values[0]` raises `IndexError` when the selection is
empty — modelled as `none`. -/
def commonMeta : List FileItem → Option Fields
  | [] => none
  | it :: its =>
    some
      { seriesGroup :=
          commonKey (it.meta.seriesGroup.getD "") (its.map fun j => j.meta.seriesGroup.getD "")
        series := commonKey (it.meta.series.getD "") (its.map fun j => j.meta.series.getD "")
        title := commonKey (it.meta.title.getD "") (its.map fun j => j.meta.title.getD "")
        volume := commonKey (it.meta.volume.getD "") (its.map fun j => j.meta.volume.getD "")
        number := commonKey (it.meta.number.getD "") (its.map fun j => j.meta.number.getD "")
        year := commonKey (it.meta.year.getD "") (its.map fun j => j.meta.year.getD "")
        month := commonKey (it.meta.month.getD "") (its.map fun j => j.meta.month.getD "")
        day := commonKey (it.meta.day.getD "") (its.map fun j => j.meta.day.getD "")
        author := commonKey (it.meta.author.getD "") (its.map fun j => j.meta.author.getD "") }

/-- The per-record body of `MainWindow.on_field_changed` (the
`apply_field_edits` operation of the specification): every non-sentinel
field text is written into `meta`, and `dirty` becomes whether any
non-sentinel field text differs from `saved_meta`'s value for that key
(absent read as the empty string). Sentinel-valued fields are skipped by
`continue`: they are neither applied nor compared. -/
def applyFieldEdits (it : FileItem) (cur : Fields) : FileItem :=
  let s := it.saved_meta
  let m := it.meta
  let upd : Option String → String → Option String := fun old v =>
    if v = sentinel then old else some v
  let chg : String → Option String → Bool := fun v old =>
    if v = sentinel then false else v != old.getD ""
  { it with
    meta :=
      { m with
        seriesGroup := upd m.seriesGroup cur.seriesGroup
        series := upd m.series cur.series
        title := upd m.title cur.title
        volume := upd m.volume cur.volume
        number := upd m.number cur.number
        year := upd m.year cur.year
        month := upd m.month cur.month
        day := upd m.day cur.day
        author := upd m.author cur.author }
    dirty :=
      chg cur.seriesGroup s.seriesGroup || chg cur.series s.series ||
      chg cur.title s.title || chg cur.volume s.volume ||
      chg cur.number s.number || chg cur.year s.year ||
      chg cur.month s.month || chg cur.day s.day ||
      chg cur.author s.author }

/-- The snapshot taken on a successful save:
`{k: v for k, v in it.meta.items() if v and v != '<개별값>'}` — only
truthy, non-sentinel values are retained. -/
def filterSaved (m : Meta) : Meta :=
  let keep : Option String → Option String := fun f =>
    match f with
    | some v => if v ≠ "" ∧ v ≠ sentinel then some v else none
    | none => none
  { seriesGroup := keep m.seriesGroup
    series := keep m.series
    title := keep m.title
    volume := keep m.volume
    number := keep m.number
    year := keep m.year
    month := keep m.month
    day := keep m.day
    author := keep m.author
    penciller := keep m.penciller
    inker := keep m.inker }

/-- What the save loops do to one record after `write_comicinfo_to_zip`
returns `ok`: on success update the snapshot and clear `dirty`; on failure
leave the record exactly as it was. -/
def saveItem (it : FileItem) (ok : Bool) : FileItem :=
  if ok then { it with saved_meta := filterSaved it.meta, dirty := false } else it

/-- The status-bar progress text `f"({idx}/{total}) 저장중..."` emitted
before each attempted record. -/
def progressMsg (idx total : Nat) : String :=
  "(" ++ toString idx ++ "/" ++ toString total ++ ") 저장중..."

/-- Observable outcome of `MainWindow.save_all`: the record list after the
loop, the resulting filesystem, the emitted progress messages, and the
`any_saved` flag that decides the final message box. Nothing else is
returned or reported by the source. -/
structure SaveAllOut where
  files : List FileItem
  fs : FPath → List Nat
  messages : List String
  anySaved : Bool

/-- The loop of `MainWindow.save_all` over the record list: non-dirty
records are not attempted (they are not in `dirty_items`); each dirty
record is serialized and persisted in order, the progress counter advancing
only over dirty records; an individual failure leaves its record unchanged
and the loop continues. -/
def saveAllGo (ora : FPath → IOOracle) (total : Nat) :
    Nat → (FPath → List Nat) → List FileItem → SaveAllOut
  | _, fs, [] => ⟨[], fs, [], false⟩
  | idx, fs, it :: rest =>
    if it.dirty then
      let r := writeComicinfoToZip (fs it.path) (ora it.path) (buildXmlFromMeta it.meta)
      let fs' := fun p => if p = it.path then r.2 else fs p
      let out := saveAllGo ora total (idx + 1) fs' rest
      ⟨saveItem it r.1 :: out.files, out.fs, progressMsg idx total :: out.messages,
        r.1 || out.anySaved⟩
    else
      let out := saveAllGo ora total idx fs rest
      ⟨it :: out.files, out.fs, out.messages, out.anySaved⟩

/-- Model of `MainWindow.save_all`: `total` is the number of dirty records
and the progress counter starts at 1. -/
def saveAll (files : List FileItem) (fs : FPath → List Nat) (ora : FPath → IOOracle) :
    SaveAllOut :=
  saveAllGo ora (files.filter (·.dirty)).length 1 fs files

/-- Digit run to integer, as `int(p)` does for an ASCII digit run. -/
def digitVal (l : List Char) : Nat := l.foldl (fun a c => a * 10 + (c.toNat - 48)) 0

/-- The alternating parts produced by `re.split(r"(\d+)", s)` turned into
the sort key of `natural_key`: non-digit runs lowercased (even positions,
possibly empty), digit runs as integers (odd positions). The fuel argument
bounds the recursion; `s.length + 1` always suffices. -/
def natKeyGo : Nat → List Char → List (String ⊕ Nat)
  | 0, _ => []
  | fuel + 1, l =>
    let nd := l.takeWhile (fun c => ! c.isDigit)
    let rest := l.dropWhile (fun c => ! c.isDigit)
    Sum.inl (lowerStr (String.mk nd)) ::
      match rest with
      | [] => []
      | _ =>
        let dg := rest.takeWhile (·.isDigit)
        let rest2 := rest.dropWhile (·.isDigit)
        Sum.inr (digitVal dg) :: natKeyGo fuel rest2

/-- Model of the `natural_key` helper of `MainWindow.load_paths`. -/
def naturalKey (s : String) : List (String ⊕ Nat) := natKeyGo (s.length + 1) s.toList

/-- Python `<` between two same-position key elements. Keys alternate
string/integer by position, so the cross-constructor cases never arise
between two natural keys; they are fixed arbitrarily to keep the order
total. -/
def eltLt : (String ⊕ Nat) → (String ⊕ Nat) → Bool
  | .inl a, .inl b => decide (a < b)
  | .inr a, .inr b => decide (a < b)
  | .inl _, .inr _ => true
  | .inr _, .inl _ => false

/-- Python tuple comparison over key lists: lexicographic, a shorter tuple
preceding any extension of it. -/
def keyLe : List (String ⊕ Nat) → List (String ⊕ Nat) → Bool
  | [], _ => true
  | _ :: _, [] => false
  | x :: xs, y :: ys => if eltLt x y then true else if eltLt y x then false else keyLe xs ys

/-- The comparator `load_paths` sorts the record list by. -/
def fileLe (a b : FileItem) : Bool := keyLe (naturalKey a.path.name) (naturalKey b.path.name)

/-- Model of the per-path body of `MainWindow.load_paths`: build a fresh
record, parsing the descriptor when one can be read (`meta` and
`saved_meta` start as the same parsed dictionary), and defaulting to an
empty record otherwise. -/
def loadItem (p : FPath) (fs : FPath → List Nat) : FileItem :=
  match readComicinfoFromZip (fs p) with
  | some tree =>
    let m := metaFromXml tree
    { path := p, meta := m, saved_meta := m, has_comicinfo := true, dirty := false }
  | none => { path := p }

/-- Model of `MainWindow.load_paths`: append each supplied path unless some
already-held record has an equal path (records appended earlier in the same
batch count), then sort the whole list by the natural key of the file name.
Python's `list.sort` is stable; `List.mergeSort` matches it. -/
def loadPaths (files : List FileItem) (paths : List FPath) (fs : FPath → List Nat) :
    List FileItem :=
  let files' := paths.foldl
    (fun acc p => if acc.any (fun e => e.path == p) then acc else acc ++ [loadItem p fs]) files
  files'.mergeSort fileLe

theorem addIf_eq_filter (t v : String) :
    addIf t v = ([(t, v)] : Xml).filter (fun c => decide (c.2 ≠ "" ∧ c.2 ≠ sentinel)) := by
  unfold addIf
  by_cases h : v ≠ "" ∧ v ≠ sentinel <;> simp [h]

theorem authorBlock_expand (a : String) :
    (if a ≠ "" ∧ a ≠ sentinel then addIf "Penciller" a ++ addIf "Inker" a else []) =
      addIf "Penciller" a ++ addIf "Inker" a := by
  by_cases h : a ≠ "" ∧ a ≠ sentinel <;> simp [addIf, h]

/-- C9: the serializer emits the child elements in the fixed order
`SeriesGroup, Series, Title, Volume, Number, Year, Month, Day`, then
`Penciller` and `Inker` in that order — both carrying the `Author` value —
and omits every field whose value is empty or equals the mixed-value
sentinel. -/
theorem buildXml_fixed_order_and_omission (m : Meta) :
    buildXmlFromMeta m = serializedChildrenSpec m := by
  unfold buildXmlFromMeta serializedChildrenSpec
  rw [authorBlock_expand]
  simp only [addIf_eq_filter, ← List.filter_append]
  simp

/-- C8: applying the same field edits a second time changes nothing —
neither the metadata nor the dirty flag. -/
theorem applyFieldEdits_idem (it : FileItem) (cur : Fields) :
    applyFieldEdits (applyFieldEdits it cur) cur = applyFieldEdits it cur := by
  dsimp only [applyFieldEdits]
  split_ifs <;> rfl

theorem commonKey_spec (f : String) (rest : List String) :
    commonKey f rest = if (f :: rest).all (· == f) then f else sentinel := by
  unfold commonKey
  by_cases h1 : ((f :: rest).all fun v => v == f) = true
  · simp [h1]
  · have h2 : ¬ ((f :: rest).all fun v => v == "") = true := by
      intro h2
      apply h1
      have hf : f = "" := by
        have := List.all_eq_true.mp h2 f (by simp)
        simpa using this
      subst hf
      exact h2
    simp [h1, h2]

/-- C4: for a non-empty selection, the unified view's value for a key is
the members' common value when they all agree on it (the all-empty case
included), and the mixed-value sentinel otherwise. -/
theorem commonMeta_unifies (it : FileItem) (its : List FileItem) (k : FKey) :
    (commonMeta (it :: its)).map (fun v => fieldsGet v k) =
      some
        (if (it :: its).all (fun j => metaGetD j.meta k == metaGetD it.meta k)
         then metaGetD it.meta k else sentinel) := by
  cases k <;>
    simp [commonMeta, fieldsGet, metaGetD, commonKey_spec, List.all_map, Function.comp]

/-- The all-empty unified view the specification promises for an empty
selection. -/
def allEmptyFields : Fields := {}

/-- C5 counterexample: on a selection of zero members `_common_meta` does
not return the all-empty view — `values[0]` raises `IndexError` (modelled
as `none`). -/
theorem commonMeta_nil_not_allEmpty : commonMeta [] ≠ some allEmptyFields := by
  simp [commonMeta]

/-- C5 amended: applied to a selection of zero members the unified-view
computation fails with an `IndexError` instead of returning a view; the
only caller guards against this by returning early (blanking the form
fields itself) when the selection count is zero. -/
theorem commonMeta_nil_fails : commonMeta [] = none := rfl

theorem chg_spec (v : String) (old : Option String) :
    ((if v = sentinel then false else v != old.getD "") = true) ↔
      v ≠ sentinel ∧ v ≠ old.getD "" := by
  split_ifs with h <;> simp [h]

theorem applied_meta_get (it : FileItem) (cur : Fields) (k : FKey)
    (h : fieldsGet cur k ≠ sentinel) :
    metaGetD (applyFieldEdits it cur).meta k = fieldsGet cur k := by
  cases k <;> simp only [fieldsGet] at h <;>
    simp [applyFieldEdits, metaGetD, fieldsGet, h]

/-- A reachable record state: the file loaded with `Series = "2"`, then
edited alone to `Series = "1"` (so it is dirty and its other editable keys
were written back as empty strings). -/
def c3Item : FileItem :=
  { path := ⟨"d", "x.cbz"⟩
    meta :=
      { seriesGroup := some "", series := some "1", title := some "", volume := some ""
        number := some "", year := some "", month := some "", day := some ""
        author := some "" }
    saved_meta := { series := some "2" }
    has_comicinfo := true
    dirty := true }

/-- The edit applied while `c3Item` is selected together with a record
whose `Series` differs (the unified view shows the sentinel for `Series`),
after the user touches another field and reverts it: every field text is
the unified value again. -/
def c3Cur : Fields := { series := sentinel }

/-- C3 counterexample: after this edit the record's dirty flag is cleared
even though its metadata still differs from `saved_meta` on `Series`
("1" versus "2"), and neither side holds the mixed-value sentinel — the
sentinel-valued edit is skipped from the comparison, so the claimed
invariant fails. -/
theorem dirty_invariant_fails :
    ((applyFieldEdits c3Item c3Cur).dirty = false) ∧
      metaGetD (applyFieldEdits c3Item c3Cur).meta .series ≠
        metaGetD (applyFieldEdits c3Item c3Cur).saved_meta .series ∧
      metaGetD (applyFieldEdits c3Item c3Cur).meta .series ≠ sentinel := by
  refine ⟨rfl, ?_, ?_⟩ <;> decide

/-- C3 amended: after `apply_field_edits` the dirty flag is true iff the
metadata differs from `saved_metadata` on at least one of the **nine
editable** keys **whose edit value is not the sentinel** (absent keys read
as the empty string). Keys whose edit value is the sentinel keep their
previous metadata value and are excluded from the comparison — a
pre-existing difference behind a mixed field is ignored — and the
`Penciller`/`Inker` keys are never compared. -/
theorem dirty_tracks_nonsentinel_diffs (it : FileItem) (cur : Fields) :
    ((applyFieldEdits it cur).dirty = true) ↔
      ∃ k : FKey, fieldsGet cur k ≠ sentinel ∧
        metaGetD (applyFieldEdits it cur).meta k ≠ metaGetD it.saved_meta k := by
  constructor
  · intro h
    dsimp only [applyFieldEdits] at h
    simp only [Bool.or_eq_true, chg_spec] at h
    have hx : ∃ k : FKey, fieldsGet cur k ≠ sentinel ∧
        fieldsGet cur k ≠ metaGetD it.saved_meta k := by
      rcases h with ((((((((h | h) | h) | h) | h) | h) | h) | h) | h)
      · exact ⟨.seriesGroup, h⟩
      · exact ⟨.series, h⟩
      · exact ⟨.title, h⟩
      · exact ⟨.volume, h⟩
      · exact ⟨.number, h⟩
      · exact ⟨.year, h⟩
      · exact ⟨.month, h⟩
      · exact ⟨.day, h⟩
      · exact ⟨.author, h⟩
    obtain ⟨k, h1, h2⟩ := hx
    refine ⟨k, h1, ?_⟩
    rw [applied_meta_get it cur k h1]
    exact h2
  · rintro ⟨k, h1, h2⟩
    rw [applied_meta_get it cur k h1] at h2
    dsimp only [applyFieldEdits]
    simp only [Bool.or_eq_true, chg_spec]
    cases k <;> simp only [fieldsGet] at h1 h2 <;> simp only [metaGetD] at h2
    · exact Or.inl (Or.inl (Or.inl (Or.inl (Or.inl (Or.inl (Or.inl (Or.inl ⟨h1, h2⟩)))))))
    · exact Or.inl (Or.inl (Or.inl (Or.inl (Or.inl (Or.inl (Or.inl (Or.inr ⟨h1, h2⟩)))))))
    · exact Or.inl (Or.inl (Or.inl (Or.inl (Or.inl (Or.inl (Or.inr ⟨h1, h2⟩))))))
    · exact Or.inl (Or.inl (Or.inl (Or.inl (Or.inl (Or.inr ⟨h1, h2⟩)))))
    · exact Or.inl (Or.inl (Or.inl (Or.inl (Or.inr ⟨h1, h2⟩))))
    · exact Or.inl (Or.inl (Or.inl (Or.inr ⟨h1, h2⟩)))
    · exact Or.inl (Or.inl (Or.inr ⟨h1, h2⟩))
    · exact Or.inl (Or.inr ⟨h1, h2⟩)
    · exact Or.inr ⟨h1, h2⟩

/-- A one-page container used as the concrete on-disk input for the
archive-rewrite counterexample and witnesses. -/
def cexEntries : List ZipEntry := [⟨"page1.png", [1, 2, 3]⟩]

/-- Its on-disk image. -/
def cexDisk : List Nat := zipImage cexEntries

/-- C1 counterexample: when the final write fails after the file has been
opened for writing (modelled as `failAfter 0`: truncated, nothing written),
the failure is still reported as `False`, but the original file on disk is
**not** left untouched — it is truncated. `Path.write_bytes` truncates
before writing, so a mid-write failure leaves a prefix of the new image. -/
theorem replace_write_failure_truncates :
    (writeComicinfoToZip cexDisk ⟨false, false, .failAfter 0⟩ []).1 = false ∧
      (writeComicinfoToZip cexDisk ⟨false, false, .failAfter 0⟩ []).2 ≠ cexDisk := by
  constructor
  · rfl
  · decide

/-- C1 amended: for every failure occurring **before the final write
begins** — while reading the existing entries, while building the new
archive image, or when the write cannot even open the file — the original
file on disk is untouched, the failure is reported as the boolean `false`
(never raised), and the record stays exactly as it was, its dirty flag
still set. A failure during the write itself is still reported as `false`
and keeps the record dirty, but can leave the file truncated or
half-written. -/
theorem replace_prewrite_failure_keeps_disk (disk : List Nat) (o : IOOracle) (root : Xml)
    (it : FileItem) (hw : ∀ k, o.writeOutcome ≠ .failAfter k)
    (hf : (writeComicinfoToZip disk o root).1 = false) :
    (writeComicinfoToZip disk o root).2 = disk ∧ saveItem it false = it := by
  refine ⟨?_, by simp [saveItem]⟩
  unfold writeComicinfoToZip at hf ⊢
  rcases o with ⟨rf, bf, wo⟩
  cases rf
  · cases hz : zipParse disk with
    | none => simp [hz]
    | some es =>
      cases bf
      · cases wo with
        | ok => simp [hz] at hf
        | openFail => simp [hz]
        | failAfter k => exact absurd rfl (hw k)
      · simp [hz]
  · simp

/-- A record whose save is in flight, used to witness that failure leaves
the dirty flag set. -/
def witItem : FileItem :=
  { path := ⟨"d", "w.cbz"⟩, meta := { series := some "Foo" }, dirty := true }

theorem replace_prewrite_failure_keeps_disk_witness :
    (writeComicinfoToZip cexDisk { readFails := true } []).2 = cexDisk ∧
      saveItem witItem false = witItem :=
  replace_prewrite_failure_keeps_disk cexDisk { readFails := true } [] witItem
    (fun _ h => nomatch h) rfl

/-- C2: whenever `write_comicinfo_to_zip` succeeds, the resulting on-disk
container holds exactly the rebuilt entry list: every original entry whose
name does not case-insensitively end in `comicinfo.xml` is preserved with
identical name and content (in order, multiplicities included), and exactly
one descriptor entry exists — written under the literal name
`ComicInfo.xml`, which has no directory component, holding the serialized
descriptor bytes. -/
theorem replace_success_rebuilds (disk : List Nat) (o : IOOracle) (root : Xml)
    (es : List ZipEntry) (hes : zipParse disk = some es)
    (hok : (writeComicinfoToZip disk o root).1 = true) :
    zipParse (writeComicinfoToZip disk o root).2 = some (newEntries es (xmlImage root)) ∧
      (newEntries es (xmlImage root)).filter (fun e => ! isDescName e.name) =
        es.filter (fun e => ! isDescName e.name) ∧
      (newEntries es (xmlImage root)).filter (fun e => isDescName e.name) =
        [⟨"ComicInfo.xml", xmlImage root⟩] ∧
      "ComicInfo.xml".toList.all (fun c => c ≠ '/') := by
  have hdesc : isDescName "ComicInfo.xml" = true := by decide
  have himg : (writeComicinfoToZip disk o root).2 = zipImage (newEntries es (xmlImage root)) := by
    unfold writeComicinfoToZip at hok ⊢
    rcases o with ⟨rf, bf, wo⟩
    cases rf
    · rw [hes] at hok ⊢
      cases bf
      · cases wo with
        | ok => rfl
        | openFail => simp at hok
        | failAfter k => simp at hok
      · simp at hok
    · simp at hok
  refine ⟨by rw [himg, zipParse_zipImage], ?_, ?_, by decide⟩
  · unfold newEntries
    rw [List.filter_append, List.filter_filter]
    simp [hdesc]
  · unfold newEntries
    rw [List.filter_append, List.filter_filter]
    simp [hdesc]

/-- A two-entry container whose existing descriptor sits in a
subdirectory under a different casing. -/
def c2Entries : List ZipEntry := [⟨"Page1.PNG", [7]⟩, ⟨"sub/comicInfo.XML", [9]⟩]

/-- Its on-disk image. -/
def c2Disk : List Nat := zipImage c2Entries

/-- A concrete descriptor document to write. -/
def c2Root : Xml := [("Series", "X")]

theorem replace_success_rebuilds_witness :
    zipParse (writeComicinfoToZip c2Disk {} c2Root).2 =
        some (newEntries c2Entries (xmlImage c2Root)) ∧
      (newEntries c2Entries (xmlImage c2Root)).filter (fun e => ! isDescName e.name) =
        c2Entries.filter (fun e => ! isDescName e.name) ∧
      (newEntries c2Entries (xmlImage c2Root)).filter (fun e => isDescName e.name) =
        [⟨"ComicInfo.xml", xmlImage c2Root⟩] ∧
      "ComicInfo.xml".toList.all (fun c => c ≠ '/') :=
  replace_success_rebuilds c2Disk {} c2Root c2Entries (zipParse_zipImage c2Entries) (by decide)

theorem find?_addIf (t tag v : String) :
    List.find? (fun c => c.1 == tag) (addIf t v) =
      if (t == tag) && (decide (v ≠ "") && decide (v ≠ sentinel)) then some (t, v)
      else none := by
  unfold addIf
  by_cases h : v ≠ "" ∧ v ≠ sentinel
  · by_cases ht : (t == tag) = true <;> simp [h, ht, List.find?_cons]
  · have hb : (decide (v ≠ "") && decide (v ≠ sentinel)) = false := by
      rcases not_and_or.mp h with h1 | h1 <;> simp [h1]
    simp [h, hb]

/-- C7: parsing the serialized form of a descriptor reproduces every
non-empty, non-sentinel editable field exactly; the `Author` value travels
through the `Penciller`/`Inker` expansion and is folded back (Penciller
preferred) unchanged. -/
theorem parse_serialize_roundtrip (m : Meta) (k : FKey)
    (h1 : metaGetD m k ≠ "") (h2 : metaGetD m k ≠ sentinel) :
    metaGetD (metaFromXml (buildXmlFromMeta m)) k = metaGetD m k := by
  cases k <;> simp only [metaGetD] at h1 h2 ⊢ <;>
    simp [metaFromXml, readTag, buildXmlFromMeta, authorBlock_expand,
      List.find?_append, find?_addIf, pyOr, h1, h2]

/-- A concrete descriptor exercising the Author expansion/folding. -/
def c7Meta : Meta := { series := some "Foo", author := some "Bar" }

theorem parse_serialize_roundtrip_witness :
    metaGetD (metaFromXml (buildXmlFromMeta c7Meta)) .author = metaGetD c7Meta .author :=
  parse_serialize_roundtrip c7Meta .author (by decide) (by decide)

theorem list_any_congr {α : Type} {l : List α} {p q : α → Bool}
    (h : ∀ a ∈ l, p a = q a) : l.any p = l.any q := by
  induction l with
  | nil => rfl
  | cons a l ih =>
    simp only [List.any_cons, h a (by simp)]
    rw [ih fun b hb => h b (by simp [hb])]

/-- What the save loop decides about one record, as a function of the
filesystem at the moment the record is attempted. -/
def persistOk (fs : FPath → List Nat) (ora : FPath → IOOracle) (it : FileItem) : Bool :=
  (writeComicinfoToZip (fs it.path) (ora it.path) (buildXmlFromMeta it.meta)).1

theorem saveAllGo_spec (ora : FPath → IOOracle) (total : Nat) :
    ∀ (rest : List FileItem) (idx : Nat) (fs : FPath → List Nat),
      (rest.map (·.path)).Nodup →
      (saveAllGo ora total idx fs rest).files =
          rest.map (fun it => if it.dirty then saveItem it (persistOk fs ora it) else it) ∧
        (saveAllGo ora total idx fs rest).messages =
          (List.range (rest.filter (·.dirty)).length).map
            (fun j => progressMsg (idx + j) total) ∧
        (saveAllGo ora total idx fs rest).anySaved =
          rest.any (fun it => it.dirty && persistOk fs ora it)
  | [], idx, fs, _ => by simp [saveAllGo]
  | it :: rest, idx, fs, hnd => by
    rw [List.map_cons] at hnd
    have hhd : it.path ∉ rest.map (·.path) := (List.nodup_cons.mp hnd).1
    have htl : (rest.map (·.path)).Nodup := (List.nodup_cons.mp hnd).2
    by_cases hd : it.dirty
    · have hfs' : ∀ j ∈ rest,
          (fun p => if p = it.path then
              (writeComicinfoToZip (fs it.path) (ora it.path) (buildXmlFromMeta it.meta)).2
            else fs p) j.path = fs j.path := by
        intro j hj
        have : j.path ≠ it.path := by
          intro he
          exact hhd (he ▸ List.mem_map_of_mem (·.path) hj)
        simp [this]
      obtain ⟨ih1, ih2, ih3⟩ := saveAllGo_spec ora total rest (idx + 1)
        (fun p => if p = it.path then
            (writeComicinfoToZip (fs it.path) (ora it.path) (buildXmlFromMeta it.meta)).2
          else fs p) htl
      have hok : ∀ j ∈ rest,
          persistOk (fun p => if p = it.path then
              (writeComicinfoToZip (fs it.path) (ora it.path) (buildXmlFromMeta it.meta)).2
            else fs p) ora j = persistOk fs ora j := by
        intro j hj
        unfold persistOk
        rw [hfs' j hj]
      refine ⟨?_, ?_, ?_⟩
      · simp only [saveAllGo, hd, ite_true, List.map_cons]
        rw [ih1]
        congr 1
        apply List.map_congr_left
        intro j hj
        by_cases hjd : j.dirty = true
        · simp only [hjd, ite_true]
          rw [hok j hj]
        · simp [hjd]
      · simp only [saveAllGo, hd, ite_true]
        rw [List.filter_cons_of_pos (by simpa using hd), ih2]
        rw [List.length_cons, List.range_succ_eq_map]
        simp only [List.map_cons, List.map_map]
        refine congrArg₂ _ (by simp) ?_
        apply List.map_congr_left
        intro j _
        show progressMsg (idx + 1 + j) total = progressMsg (idx + (j + 1)) total
        congr 1
        omega
      · simp only [saveAllGo, hd, ite_true]
        rw [List.any_cons]
        simp only [hd, Bool.true_and]
        rw [ih3]
        refine congrArg₂ _ rfl ?_
        apply list_any_congr
        intro j hj
        rw [hok j hj]
    · obtain ⟨ih1, ih2, ih3⟩ := saveAllGo_spec ora total rest idx fs htl
      refine ⟨?_, ?_, ?_⟩
      · simp only [saveAllGo, hd, if_neg, Bool.false_eq_true, not_false_iff]
        rw [List.map_cons, if_neg (by simpa using hd), ih1]
      · simp only [saveAllGo, hd]
        rw [List.filter_cons_of_neg (by simpa using hd), ih2]
        simp
      · simp only [saveAllGo, hd]
        rw [List.any_cons]
        simp only [Bool.false_and, Bool.false_or, hd]
        rw [ih3]
        simp

/-- C6 amended: over a record list with pairwise-distinct paths, the batch
save attempts **every** dirty record in order — an individual persist
failure does not abort the loop. Each dirty record whose persist succeeds
gets its snapshot updated and its dirty flag cleared, each one whose
persist fails is left unchanged (still dirty), and non-dirty records are
not attempted. One progress message per dirty record is emitted, numbered
`i/total` over the dirty records. The routine, however, reports afterwards
only whether at least one record was saved (`any_saved`); it returns no
attempted/succeeded counts and no list of failed records (the failed ones
remain identifiable only as the records still marked dirty). -/
theorem save_all_isolates_failures (files : List FileItem) (fs : FPath → List Nat)
    (ora : FPath → IOOracle) (hnd : (files.map (·.path)).Nodup) :
    (saveAll files fs ora).files =
        files.map (fun it => if it.dirty then saveItem it (persistOk fs ora it) else it) ∧
      (saveAll files fs ora).messages =
        (List.range (files.filter (·.dirty)).length).map
          (fun j => progressMsg (j + 1) (files.filter (·.dirty)).length) ∧
      (saveAll files fs ora).anySaved =
        files.any (fun it => it.dirty && persistOk fs ora it) := by
  obtain ⟨h1, h2, h3⟩ :=
    saveAllGo_spec ora (files.filter (·.dirty)).length files 1 fs hnd
  refine ⟨h1, ?_, h3⟩
  rw [show saveAll files fs ora =
      saveAllGo ora (files.filter (·.dirty)).length 1 fs files from rfl, h2]
  apply List.map_congr_left
  intro j _
  congr 1
  omega

/-- Dirty records on three distinct paths, all holding saveable containers. -/
def c6A : FileItem := { path := ⟨"", "a.cbz"⟩, meta := { series := some "A" }, dirty := true }

/-- Second record of the batch-save example. -/
def c6B : FileItem := { path := ⟨"", "b.cbz"⟩, meta := { series := some "B" }, dirty := true }

/-- Third record of the batch-save example. -/
def c6C : FileItem := { path := ⟨"", "c.cbz"⟩, meta := { series := some "C" }, dirty := true }

/-- Every path holds a readable one-page container. -/
def c6Fs : FPath → List Nat := fun _ => zipImage [⟨"p.png", [0]⟩]

/-- Injected failure: reading the container behind record B fails. -/
def oraFailB : FPath → IOOracle := fun p => if p = c6B.path then { readFails := true } else {}

/-- Injected failure: reading the container behind record C fails. -/
def oraFailC : FPath → IOOracle := fun p => if p = c6C.path then { readFails := true } else {}

/-- C6 counterexample: the run of `save([A, B, C])` in which B fails and
the run in which C fails produce **identical** reports — the same progress
messages and the same `any_saved` flag — even though the failed sets differ
(`[B]` versus `[C]`, visible only in which record is still dirty). No
returned report can therefore give succeeded counts or the identities of
the failed records, contrary to the claim. -/
theorem save_all_report_not_informative :
    (saveAll [c6A, c6B, c6C] c6Fs oraFailB).messages =
        (saveAll [c6A, c6B, c6C] c6Fs oraFailC).messages ∧
      (saveAll [c6A, c6B, c6C] c6Fs oraFailB).anySaved =
        (saveAll [c6A, c6B, c6C] c6Fs oraFailC).anySaved ∧
      ((saveAll [c6A, c6B, c6C] c6Fs oraFailB).files.filter (·.dirty)).map (·.path) =
        [c6B.path] ∧
      ((saveAll [c6A, c6B, c6C] c6Fs oraFailC).files.filter (·.dirty)).map (·.path) =
        [c6C.path] ∧
      c6B.path ≠ c6C.path := by
  refine ⟨?_, ?_, ?_, ?_, ?_⟩ <;> decide

/-- Batch of one clean and one dirty record on distinct paths. -/
def c6Wit : List FileItem := [{ path := ⟨"", "x.cbz"⟩ }, c6A]

theorem save_all_isolates_failures_witness :
    (saveAll c6Wit c6Fs oraFailB).files =
        c6Wit.map (fun it => if it.dirty then saveItem it (persistOk c6Fs oraFailB it) else it) ∧
      (saveAll c6Wit c6Fs oraFailB).messages =
        (List.range (c6Wit.filter (·.dirty)).length).map
          (fun j => progressMsg (j + 1) (c6Wit.filter (·.dirty)).length) ∧
      (saveAll c6Wit c6Fs oraFailB).anySaved =
        c6Wit.any (fun it => it.dirty && persistOk c6Fs oraFailB it) :=
  save_all_isolates_failures c6Wit c6Fs oraFailB (by decide)

theorem eltLt_trans {a b c : String ⊕ Nat} (h1 : eltLt a b = true) (h2 : eltLt b c = true) :
    eltLt a c = true := by
  rcases a with a | a <;> rcases b with b | b <;> rcases c with c | c <;>
    simp only [eltLt, decide_eq_true_eq] at h1 h2 ⊢ <;>
      first
        | trivial
        | exact lt_trans h1 h2

theorem eltLt_eq_of_not {a b : String ⊕ Nat} (h1 : eltLt a b = false) (h2 : eltLt b a = false) :
    a = b := by
  rcases a with a | a <;> rcases b with b | b
  · simp only [eltLt, decide_eq_false_iff_not] at h1 h2
    exact congrArg Sum.inl (le_antisymm (le_of_not_lt h2) (le_of_not_lt h1))
  · simp [eltLt] at h1
  · simp [eltLt] at h2
  · simp only [eltLt, decide_eq_false_iff_not] at h1 h2
    exact congrArg Sum.inr (le_antisymm (le_of_not_lt h2) (le_of_not_lt h1))

theorem keyLe_trans :
    ∀ (a b c : List (String ⊕ Nat)), keyLe a b = true → keyLe b c = true → keyLe a c = true
  | [], _, _, _, _ => rfl
  | _ :: _, [], _, h1, _ => by simp [keyLe] at h1
  | _ :: _, _ :: _, [], _, h2 => by simp [keyLe] at h2
  | x :: xs, y :: ys, z :: zs, h1, h2 => by
    by_cases hxy : eltLt x y = true
    · by_cases hyz : eltLt y z = true
      · simp [keyLe, eltLt_trans hxy hyz]
      · have hyz' : eltLt y z = false := by simpa using hyz
        by_cases hzy : eltLt z y = true
        · simp [keyLe, hyz', hzy] at h2
        · have hzy' : eltLt z y = false := by simpa using hzy
          have he : y = z := eltLt_eq_of_not hyz' hzy'
          subst he
          simp [keyLe, hxy]
    · have hxy' : eltLt x y = false := by simpa using hxy
      by_cases hyx : eltLt y x = true
      · simp [keyLe, hxy', hyx] at h1
      · have hyx' : eltLt y x = false := by simpa using hyx
        have he : x = y := eltLt_eq_of_not hxy' hyx'
        subst he
        simp only [keyLe, hxy', Bool.false_eq_true, if_false] at h1
        by_cases hxz : eltLt x z = true
        · simp [keyLe, hxz]
        · have hxz' : eltLt x z = false := by simpa using hxz
          by_cases hzx : eltLt z x = true
          · simp [keyLe, hxz', hzx] at h2
          · have hzx' : eltLt z x = false := by simpa using hzx
            have he2 : x = z := eltLt_eq_of_not hxz' hzx'
            subst he2
            simp only [keyLe, hxz', Bool.false_eq_true, if_false] at h2 ⊢
            exact keyLe_trans xs ys zs h1 h2

theorem keyLe_total : ∀ (a b : List (String ⊕ Nat)), (keyLe a b || keyLe b a) = true
  | [], _ => by simp [keyLe]
  | _ :: _, [] => by simp [keyLe]
  | x :: xs, y :: ys => by
    by_cases hxy : eltLt x y = true
    · simp [keyLe, hxy]
    · have hxy' : eltLt x y = false := by simpa using hxy
      by_cases hyx : eltLt y x = true
      · simp [keyLe, hxy', hyx]
      · have hyx' : eltLt y x = false := by simpa using hyx
        have ht := keyLe_total xs ys
        simp only [keyLe, hxy', hyx', Bool.false_eq_true, if_false]
        exact ht

theorem fileLe_trans (a b c : FileItem) (h1 : fileLe a b) (h2 : fileLe b c) : fileLe a c :=
  keyLe_trans _ _ _ h1 h2

theorem fileLe_total (a b : FileItem) : fileLe a b || fileLe b a :=
  keyLe_total _ _

theorem loadItem_path (p : FPath) (fs : FPath → List Nat) : (loadItem p fs).path = p := by
  unfold loadItem
  cases readComicinfoFromZip (fs p) <;> rfl

theorem loadFold_mem (fs : FPath → List Nat) :
    ∀ (paths : List FPath) (acc : List FileItem) (q : FPath),
      (∃ f ∈ paths.foldl
          (fun acc p => if acc.any (fun e => e.path == p) then acc else acc ++ [loadItem p fs])
          acc, f.path = q) ↔
        (∃ f ∈ acc, f.path = q) ∨ q ∈ paths
  | [], acc, q => by simp
  | p :: ps, acc, q => by
    rw [List.foldl_cons, loadFold_mem fs ps _ q]
    have hstep : (∃ f ∈ (if acc.any (fun e => e.path == p) then acc
          else acc ++ [loadItem p fs]), f.path = q) ↔
        (∃ f ∈ acc, f.path = q) ∨ q = p := by
      by_cases hany : (acc.any fun e => e.path == p) = true
      · rw [if_pos hany]
        obtain ⟨e, he, hep⟩ := List.any_eq_true.mp hany
        constructor
        · exact fun h => Or.inl h
        · rintro (h | rfl)
          · exact h
          · exact ⟨e, he, by simpa using hep⟩
      · rw [if_neg hany]
        constructor
        · rintro ⟨f, hf, rfl⟩
          rcases List.mem_append.mp hf with hf | hf
          · exact Or.inl ⟨f, hf, rfl⟩
          · have : f = loadItem p fs := by simpa using hf
            subst this
            exact Or.inr (loadItem_path p fs)
        · rintro (⟨f, hf, rfl⟩ | he)
          · exact ⟨f, List.mem_append.mpr (Or.inl hf), rfl⟩
          · exact ⟨loadItem p fs, List.mem_append.mpr (Or.inr (by simp)),
              by rw [loadItem_path p fs]; exact he.symm⟩
    rw [hstep]
    simp [or_assoc]

theorem loadFold_nodup (fs : FPath → List Nat) :
    ∀ (paths : List FPath) (acc : List FileItem), (acc.map (·.path)).Nodup →
      ((paths.foldl
          (fun acc p => if acc.any (fun e => e.path == p) then acc else acc ++ [loadItem p fs])
          acc).map (·.path)).Nodup
  | [], acc, h => h
  | p :: ps, acc, h => by
    rw [List.foldl_cons]
    apply loadFold_nodup fs ps
    by_cases hany : (acc.any fun e => e.path == p) = true
    · rw [if_pos hany]
      exact h
    · rw [if_neg hany]
      have hnotin : p ∉ acc.map (·.path) := by
        intro hmem
        obtain ⟨e, he, hep⟩ := List.mem_map.mp hmem
        exact hany (List.any_eq_true.mpr ⟨e, he, by simp [hep]⟩)
      rw [List.map_append]
      rw [List.nodup_append]
      refine ⟨h, by simp, ?_⟩
      intro a ha hb
      have : a = p := by simpa [loadItem_path] using hb
      subst this
      exact hnotin ha

/-- C10: after every load operation the record list is sorted by the
natural-order key of the file name (digit runs compared as integers,
non-digit runs compared lowercased), so table position reflects natural
order rather than the order the paths were supplied in; a path equal to an
already-held record's path (including one added earlier in the same batch)
is skipped before sorting, so paths stay pairwise distinct and the held
paths are exactly the old ones plus the newly supplied ones. -/
theorem load_sorts_and_dedups (files : List FileItem) (paths : List FPath)
    (fs : FPath → List Nat) (hnd : (files.map (·.path)).Nodup) :
    (loadPaths files paths fs).Pairwise (fun a b => fileLe a b = true) ∧
      (∀ q : FPath, (∃ f ∈ loadPaths files paths fs, f.path = q) ↔
        (∃ f ∈ files, f.path = q) ∨ q ∈ paths) ∧
      ((loadPaths files paths fs).map (·.path)).Nodup := by
  unfold loadPaths
  refine ⟨?_, ?_, ?_⟩
  · exact @List.sorted_mergeSort FileItem fileLe fileLe_trans fileLe_total _
  · intro q
    simp only [List.mem_mergeSort]
    exact loadFold_mem fs paths files q
  · have hperm := (List.mergeSort_perm
      (paths.foldl
        (fun acc p => if acc.any (fun e => e.path == p) then acc else acc ++ [loadItem p fs])
        files) fileLe).map (·.path)
    exact hperm.nodup_iff.mpr (loadFold_nodup fs paths files hnd)

/-- Paths supplied out of natural order, with one duplicate. -/
def c10Paths : List FPath :=
  [⟨"", "b2.cbz"⟩, ⟨"", "a10.cbz"⟩, ⟨"", "a2.cbz"⟩, ⟨"", "a10.cbz"⟩]

/-- A filesystem with no readable containers (records load empty). -/
def c10Fs : FPath → List Nat := fun _ => []

theorem load_sorts_and_dedups_witness :
    (loadPaths [] c10Paths c10Fs).Pairwise (fun a b => fileLe a b = true) ∧
      (∀ q : FPath, (∃ f ∈ loadPaths [] c10Paths c10Fs, f.path = q) ↔
        (∃ f ∈ ([] : List FileItem), f.path = q) ∨ q ∈ c10Paths) ∧
      ((loadPaths [] c10Paths c10Fs).map (·.path)).Nodup :=
  load_sorts_and_dedups [] c10Paths c10Fs (by simp)
